import Mathlib

/-!
# Fast CRC table construction and rolling CRC hash (`crc.c`)

A shallow embedding of `crc.c` and proofs of the properties its specification states.

* `unsigned` values are natural numbers below `2 ^ 32`; the only operations of the
  program that can wrap (`(r & 1) - 1` and `~`) are modelled by `u32sub` and `u32not`.
* An array `unsigned T[256]` is a function from indices to entries, an assignment
  `T[i] = v` is `store T i v`.  A function that fills an output array takes the array's
  previous contents as an argument and returns the new contents; the contents of an
  uninitialised local array of `main` are an arbitrary function (named with a `₀`).
* `unsigned char *buffer` is a function from offsets to bytes, `buffer + k` is
  `offset buffer k`.
* The compile-time constant `CRC_INIT_VAL` (which can be overridden with `-D`) is an
  explicit argument of everything that uses the macros `init_CRC` / `finish_CRC`.
* `FastTableBuildTr` is `FastTableBuild` instrumented with the list of its accesses to the
  array (`Access.read i` / `Access.write i`), in program order; it is used for the
  statements about which entries the function reads and writes.
-/

namespace RollingCRC

/-! ## Constants -/

/-- Macro `#define kCrcPoly 0xEDB88320`. -/
def kCrcPoly : Nat := 0xEDB88320

/-- Macro `#define WINSIZE 100`. -/
def WINSIZE : Nat := 100

/-- Macro `#define TESTSIZE 200`. -/
def TESTSIZE : Nat := 200

/-! ## Machine arithmetic and memory -/

/-- Subtraction of `unsigned` values: `a - b` modulo `2 ^ 32`. -/
def u32sub (a b : Nat) : Nat := (a + 2 ^ 32 - b) % 2 ^ 32

/-- Bitwise complement of an `unsigned` value: `~a`. -/
def u32not (a : Nat) : Nat := 2 ^ 32 - 1 - a % 2 ^ 32

/-- The array assignment `T[i] = v`. -/
def store (T : Nat → Nat) (i v : Nat) : Nat → Nat :=
  fun k => if k = i then v else T k

/-- Pointer arithmetic `buffer + k`. -/
def offset (buffer : Nat → Nat) (k : Nat) : Nat → Nat :=
  fun i => buffer (k + i)

/-- The counting loop `for (i = lo; i < hi; i++) s = body i s`. -/
def forLoop {σ : Type} (lo hi : Nat) (body : Nat → σ → σ) (s : σ) : σ :=
  (List.range' lo (hi - lo)).foldl (fun s i => body i s) s

/-! ## `FastTableBuild` -/

/-- One bit round, `(r >> 1) ^ (kCrcPoly & ~((r & 1) - 1))`. -/
def crcRound (r : Nat) : Nat :=
  (r >>> 1) ^^^ (kCrcPoly &&& u32not (u32sub (r &&& 1) 1))

/-- The loop `for (i = ..; i; i /= 2) CRCTable[i] = r = (r >> 1) ^ (kCrcPoly & ~((r & 1) - 1));`
of `FastTableBuild`, entered with the given `r` and `i`. -/
def halvingLoop (CRCTable : Nat → Nat) (r i : Nat) : Nat → Nat :=
  if h : i ≠ 0 then
    halvingLoop (store CRCTable i (crcRound r)) (crcRound r) (i / 2)
  else CRCTable
termination_by i
decreasing_by exact Nat.div_lt_self (Nat.pos_of_ne_zero h) (by decide)

/-- The inner loop `for (j = 1; j < i; j++) CRCTable[i+j] = CRCTable[i] ^ CRCTable[j];`. -/
def combineLoop (CRCTable : Nat → Nat) (i : Nat) : Nat → Nat :=
  forLoop 1 i (fun j T => store T (i + j) (T i ^^^ T j)) CRCTable

/-- The outer loop `for (i = ..; i < 256; i *= 2)` of `FastTableBuild`, entered with a
positive `i` (the program enters it with `i = 2`). -/
def doublingLoop (CRCTable : Nat → Nat) (i : Nat) (hi : 0 < i) : Nat → Nat :=
  if h : i < 256 then
    doublingLoop (combineLoop CRCTable i) (i * 2) (Nat.mul_pos hi (by decide))
  else CRCTable
termination_by 256 - i
decreasing_by omega

/-- Function `void FastTableBuild (unsigned CRCTable[256], unsigned seed)`: the contents of
`CRCTable` after the call, from its contents before the call and `seed`. -/
def FastTableBuild (CRCTable : Nat → Nat) (seed : Nat) : Nat → Nat :=
  let T := store CRCTable 0 0
  let T := store T 128 seed
  let T := halvingLoop T seed 64
  doublingLoop T 2 (by decide)

/-! ## The checksum macros and `calcCRC` -/

/-- Macro `#define init_CRC() CRC_INIT_VAL`. -/
def init_CRC (CRC_INIT_VAL : Nat) : Nat := CRC_INIT_VAL

/-- Macro `#define update_CRC(crc,CRCTable,c) (CRCTable[((crc)^(c)) & 0xFF] ^ ((crc)>>8))`. -/
def update_CRC (crc : Nat) (CRCTable : Nat → Nat) (c : Nat) : Nat :=
  CRCTable ((crc ^^^ c) &&& 0xFF) ^^^ (crc >>> 8)

/-- Macro `#define finish_CRC(crc) ((crc) ^ CRC_INIT_VAL)`. -/
def finish_CRC (CRC_INIT_VAL crc : Nat) : Nat := crc ^^^ CRC_INIT_VAL

/-- Function `unsigned calcCRC (unsigned char *buffer, unsigned len, unsigned CRCTable[256])`. -/
def calcCRC (CRC_INIT_VAL : Nat) (buffer : Nat → Nat) (len : Nat) (CRCTable : Nat → Nat) :
    Nat :=
  let crc := init_CRC CRC_INIT_VAL
  let crc := forLoop 0 len (fun i crc => update_CRC crc CRCTable (buffer i)) crc
  finish_CRC CRC_INIT_VAL crc

/-! ## `BuildRollingCRCTable` -/

/-- The body of the loop over `c` in `BuildRollingCRCTable`: the value of `x ^ y` that is
stored in `RollingCRCTable[c]`. -/
def rollingEntry (CRC_INIT_VAL : Nat) (CRCTable : Nat → Nat) (c : Nat) : Nat :=
  let x := init_CRC CRC_INIT_VAL
  let y := init_CRC CRC_INIT_VAL
  let x := update_CRC x CRCTable c
  let y := update_CRC y CRCTable 0
  let xy := forLoop 0 (WINSIZE - 1)
    (fun _ xy => (update_CRC xy.1 CRCTable 0, update_CRC xy.2 CRCTable 0)) (x, y)
  let x := update_CRC xy.1 CRCTable 0
  x ^^^ xy.2

/-- Function `void BuildRollingCRCTable (const unsigned CRCTable[256], unsigned RollingCRCTable[256])`:
the contents of `RollingCRCTable` after the call. -/
def BuildRollingCRCTable (CRC_INIT_VAL : Nat) (CRCTable RollingCRCTable : Nat → Nat) :
    Nat → Nat :=
  forLoop 0 256 (fun c R => store R c (rollingEntry CRC_INIT_VAL CRCTable c)) RollingCRCTable

/-! ## The pieces of `main` -/

/-- Classic CRC table construction (`main`, lines 74-82): the contents of `CRCTab` after
the loop, from its (uninitialised) contents before. -/
def classicTable (CRCTab : Nat → Nat) : Nat → Nat :=
  forLoop 0 256 (fun i T =>
    let r := i
    let r := forLoop 0 8 (fun _ r => crcRound r) r
    store T i r) CRCTab

/-- Rolling CRC table construction (`main`, lines 87-95, compiled when `CRC_INIT_VAL == 0`):
the contents of `RollingCRCTab` after the loop. -/
def inlineRollingTable (CRCTab RollingCRCTab : Nat → Nat) : Nat → Nat :=
  forLoop 0 256 (fun i R =>
    let crc := init_CRC 0
    let crc := update_CRC crc CRCTab i
    let crc := forLoop 0 WINSIZE (fun _ crc => update_CRC crc CRCTab 0) crc
    store R i (finish_CRC 0 crc)) RollingCRCTab

/-- The test buffer of `main`: `buffer[i] = 11 + i*31 + i/17`, truncated to `unsigned char`. -/
def testBuffer (i : Nat) : Nat := (11 + i * 31 + i / 17) % 256

/-- The incremental computation of `main` (lines 120-127) with `k` rolling steps in place
of `TESTSIZE`: the final value of `crc2`. -/
def rollCRC (CRC_INIT_VAL : Nat) (buffer : Nat → Nat) (k : Nat)
    (CRCTab RollingCRCTab : Nat → Nat) : Nat :=
  let crc2 := calcCRC CRC_INIT_VAL buffer WINSIZE CRCTab
  let crc2 := finish_CRC CRC_INIT_VAL crc2
  let crc2 := forLoop 0 k (fun i crc2 =>
    update_CRC crc2 CRCTab (buffer (WINSIZE + i)) ^^^ RollingCRCTab (buffer i)) crc2
  finish_CRC CRC_INIT_VAL crc2


/-! ## `FastTableBuild` with the trace of its array accesses -/

/-- An access of `FastTableBuild` to the array `CRCTable`, by index. -/
inductive Access where
  | read (i : Nat)
  | write (i : Nat)
  deriving DecidableEq

/-- The index of an access. -/
def Access.index : Access → Nat
  | .read i => i
  | .write i => i

/-- The halving loop of `FastTableBuild` with the accesses it makes appended to the trace:
each iteration writes `CRCTable[i]` (the value comes from the local `r`). -/
def halvingLoopTr (S : (Nat → Nat) × List Access) (r i : Nat) : (Nat → Nat) × List Access :=
  if h : i ≠ 0 then
    halvingLoopTr (store S.1 i (crcRound r), S.2 ++ [Access.write i]) (crcRound r) (i / 2)
  else S
termination_by i
decreasing_by exact Nat.div_lt_self (Nat.pos_of_ne_zero h) (by decide)

/-- The inner loop of `FastTableBuild` with its accesses: each iteration reads
`CRCTable[i]` and `CRCTable[j]` and then writes `CRCTable[i+j]`. -/
def combineLoopTr (S : (Nat → Nat) × List Access) (i : Nat) : (Nat → Nat) × List Access :=
  forLoop 1 i (fun j S =>
    (store S.1 (i + j) (S.1 i ^^^ S.1 j),
      S.2 ++ [Access.read i, Access.read j, Access.write (i + j)])) S

/-- The outer doubling loop of `FastTableBuild` with its accesses. -/
def doublingLoopTr (S : (Nat → Nat) × List Access) (i : Nat) (hi : 0 < i) :
    (Nat → Nat) × List Access :=
  if h : i < 256 then
    doublingLoopTr (combineLoopTr S i) (i * 2) (Nat.mul_pos hi (by decide))
  else S
termination_by 256 - i
decreasing_by omega

/-- The function `FastTableBuild` instrumented with the trace of its accesses to `CRCTable`,
in program order. -/
def FastTableBuildTr (CRCTable : Nat → Nat) (seed : Nat) : (Nat → Nat) × List Access :=
  let S := (store CRCTable 0 0, [Access.write 0])
  let S := (store S.1 128 seed, S.2 ++ [Access.write 128])
  let S := halvingLoopTr S seed 64
  doublingLoopTr S 2 (by decide)

/-! ## Notions used to state and prove the properties -/

/-- The table after the inner loops for `i = 2, 4, ..., 2 ^ n`. -/
def stage (T : Nat → Nat) : Nat → (Nat → Nat)
  | 0 => T
  | n + 1 => combineLoop (stage T n) (2 ^ (n + 1))

/-- The doubling structure that `FastTableBuild` establishes from `seed`. -/
def DoublingTable (seed : Nat) (F : Nat → Nat) : Prop :=
  F 0 = 0 ∧ F 128 = seed ∧
  (∀ e, e < 7 → F (2 ^ e) = crcRound (F (2 ^ (e + 1)))) ∧
  (∀ e, e < 7 → ∀ j, 1 ≤ j → j < 2 ^ (e + 1) →
    F (2 ^ (e + 1) + j) = F (2 ^ (e + 1)) ^^^ F j)

/-- A table is linear over GF(2) on byte indices. -/
def XorLinear (T : Nat → Nat) : Prop :=
  ∀ a b, a < 256 → b < 256 → T (a ^^^ b) = T a ^^^ T b

/-- The state of the loop of `calcCRC` after `n` bytes, started in state `s`. -/
def crcState (T buffer : Nat → Nat) (n s : Nat) : Nat :=
  forLoop 0 n (fun i crc => update_CRC crc T (buffer i)) s

/-- The table holds the eight-round value of every byte. -/
def IsBaseTable (T : Nat → Nat) : Prop :=
  ∀ i, i < 256 → T i = crcRound^[8] i

/-- The doubling invariant of the specification: entry `0` is `0`, and for every power of
two `i` up to `128` and every `j < i`, entry `i + j` is the XOR of entries `i` and `j`. -/
def DoublingInvariant (T : Nat → Nat) : Prop :=
  T 0 = 0 ∧ ∀ i ∈ [1, 2, 4, 8, 16, 32, 64, 128], ∀ j, j < i → T (i + j) = T i ^^^ T j

/-- The accesses of the inner loop for `j = 1, ..., m`. -/
def combineTrace (i : Nat) : Nat → List Access
  | 0 => []
  | m + 1 => combineTrace i m ++ [Access.read i, Access.read (m + 1), Access.write (i + (m + 1))]

/-- The accesses of a whole run of `FastTableBuild`. -/
def fastTrace : List Access :=
  [Access.write 0, Access.write 128, Access.write 64, Access.write 32, Access.write 16,
    Access.write 8, Access.write 4, Access.write 2, Access.write 1] ++
  combineTrace 2 1 ++ combineTrace 4 3 ++ combineTrace 8 7 ++ combineTrace 16 15 ++
  combineTrace 32 31 ++ combineTrace 64 63 ++ combineTrace 128 127

/-- Checks that every read in the trace is of an index in `w` or written earlier in the
trace. -/
def readsWritten : List Nat → List Access → Bool
  | _, [] => true
  | w, Access.read i :: tr => decide (i ∈ w) && readsWritten w tr
  | w, Access.write i :: tr => readsWritten (i :: w) tr

/-! ## Loops and stores -/

theorem store_apply (T : Nat → Nat) (i v k : Nat) :
    store T i v k = if k = i then v else T k := rfl

theorem forLoop_of_le {σ : Type} {lo hi : Nat} (h : hi ≤ lo) (body : Nat → σ → σ) (s : σ) :
    forLoop lo hi body s = s := by
  simp [forLoop, Nat.sub_eq_zero_of_le h]

theorem forLoop_succ {σ : Type} {lo hi : Nat} (h : lo ≤ hi) (body : Nat → σ → σ) (s : σ) :
    forLoop lo (hi + 1) body s = body hi (forLoop lo hi body s) := by
  have e : hi + 1 - lo = (hi - lo) + 1 := by omega
  have e2 : lo + (hi - lo) = hi := by omega
  simp [forLoop, e, List.range'_concat, List.foldl_append, e2]

theorem forLoop_first {σ : Type} {lo hi : Nat} (h : lo < hi) (body : Nat → σ → σ) (s : σ) :
    forLoop lo hi body s = forLoop (lo + 1) hi body (body lo s) := by
  have e : hi - lo = (hi - (lo + 1)) + 1 := by omega
  simp only [forLoop]
  rw [e, List.range'_succ, List.foldl_cons]

/-- A loop that fills `T[i] = g i` for `i = 0 .. n-1`. -/
theorem forLoop_fill (g : Nat → Nat) (T : Nat → Nat) (n k : Nat) :
    forLoop 0 n (fun i T => store T i (g i)) T k = if k < n then g k else T k := by
  induction n with
  | zero => simp [forLoop_of_le]
  | succ n ih =>
    rw [forLoop_succ (Nat.zero_le n)]
    simp only [store_apply, ih]
    split_ifs <;> first | rfl | omega | (subst_vars; rfl)

theorem forLoop_const {σ : Type} (f : σ → σ) (lo hi : Nat) (s : σ) :
    forLoop lo hi (fun _ s => f s) s = f^[hi - lo] s := by
  rcases Nat.lt_or_ge hi lo with h | h
  · rw [forLoop_of_le (Nat.le_of_lt h), Nat.sub_eq_zero_of_le (Nat.le_of_lt h)]; rfl
  · induction hi, h using Nat.le_induction with
    | base => simp [forLoop_of_le]
    | succ hi h ih =>
      rw [forLoop_succ h, ih, Nat.succ_sub h, Function.iterate_succ_apply']

/-! ## The bit round -/

theorem crcRound_eq (r : Nat) :
    crcRound r = (r / 2) ^^^ (if r % 2 = 1 then kCrcPoly else 0) := by
  rcases Nat.mod_two_eq_zero_or_one r with h | h
  · simp [crcRound, h, u32sub, u32not, kCrcPoly, Nat.shiftRight_succ]
  · have e : (3988292384 : Nat) &&& 4294967295 = 3988292384 := by decide
    simp [crcRound, h, u32sub, u32not, kCrcPoly, Nat.shiftRight_succ, e]

theorem crcRound_zero : crcRound 0 = 0 := by
  simp [crcRound_eq]

theorem xor_left_comm (a b c : Nat) : a ^^^ (b ^^^ c) = b ^^^ (a ^^^ c) := by
  rw [← Nat.xor_assoc, Nat.xor_comm a b, Nat.xor_assoc]

theorem xor_cancel_mid (a b c : Nat) : a ^^^ (b ^^^ (a ^^^ c)) = b ^^^ c := by
  rw [xor_left_comm b a c, ← Nat.xor_assoc, Nat.xor_self, Nat.zero_xor]

theorem crcRound_xor (a b : Nat) : crcRound (a ^^^ b) = crcRound a ^^^ crcRound b := by
  simp only [crcRound_eq, Nat.xor_div_two, Nat.xor_mod_two_eq_one]
  rcases Nat.mod_two_eq_zero_or_one a with ha | ha <;>
    rcases Nat.mod_two_eq_zero_or_one b with hb | hb <;>
    simp [ha, hb, Nat.xor_assoc, Nat.xor_comm, xor_left_comm, xor_cancel_mid, Nat.xor_cancel_left]

theorem crcRound_double (x : Nat) : crcRound (2 * x) = x := by
  simp [crcRound_eq]

theorem crcRound_iterate_zero (n : Nat) : crcRound^[n] 0 = 0 := by
  induction n with
  | zero => rfl
  | succ n ih => rw [Function.iterate_succ_apply', ih, crcRound_zero]

theorem crcRound_iterate_xor (n a b : Nat) :
    crcRound^[n] (a ^^^ b) = crcRound^[n] a ^^^ crcRound^[n] b := by
  induction n with
  | zero => rfl
  | succ n ih => rw [Function.iterate_succ_apply', ih, crcRound_xor,
      ← Function.iterate_succ_apply' crcRound, ← Function.iterate_succ_apply' crcRound]

theorem crcRound_iterate_shift (n x : Nat) : crcRound^[n] (2 ^ n * x) = x := by
  induction n generalizing x with
  | zero => simp
  | succ n ih =>
    rw [Function.iterate_succ_apply, Nat.pow_succ, Nat.mul_comm (2 ^ n) 2, Nat.mul_assoc,
      crcRound_double, ih]

theorem crcRound_lt {r : Nat} (h : r < 2 ^ 32) : crcRound r < 2 ^ 32 := by
  rw [crcRound_eq]
  apply Nat.xor_lt_two_pow
  · omega
  · split_ifs
    · simp [kCrcPoly]
    · simp


/-! ## Tables filled entry by entry -/

theorem classicTable_apply (T : Nat → Nat) (i : Nat) :
    classicTable T i = if i < 256 then crcRound^[8] i else T i := by
  simp only [classicTable, forLoop_const]
  exact forLoop_fill (fun i => crcRound^[8] i) T 256 i

theorem BuildRollingCRCTable_apply (v : Nat) (T R : Nat → Nat) (c : Nat) :
    BuildRollingCRCTable v T R c = if c < 256 then rollingEntry v T c else R c :=
  forLoop_fill (fun c => rollingEntry v T c) R 256 c

theorem iterate_pair {α : Type} (f : α → α) (n : Nat) (x y : α) :
    (fun xy : α × α => (f xy.1, f xy.2))^[n] (x, y) = (f^[n] x, f^[n] y) := by
  induction n generalizing x y with
  | zero => rfl
  | succ n ih => simp only [Function.iterate_succ_apply, ih]

theorem rollingEntry_eq (v : Nat) (T : Nat → Nat) (c : Nat) :
    rollingEntry v T c =
      (fun s => update_CRC s T 0)^[WINSIZE] (update_CRC v T c) ^^^
        (fun s => update_CRC s T 0)^[WINSIZE - 1] (update_CRC v T 0) := by
  simp only [rollingEntry, init_CRC, forLoop_const, Nat.sub_zero]
  rw [iterate_pair (fun s => update_CRC s T 0)]
  show update_CRC _ T 0 ^^^ _ = _
  rw [← Function.iterate_succ_apply' (fun s => update_CRC s T 0)]
  rfl

theorem inlineRollingTable_apply (T R : Nat → Nat) (c : Nat) :
    inlineRollingTable T R c =
      if c < 256 then (fun s => update_CRC s T 0)^[WINSIZE] (update_CRC 0 T c) else R c := by
  simp only [inlineRollingTable, forLoop_const, init_CRC, finish_CRC, Nat.xor_zero, Nat.sub_zero]
  exact forLoop_fill (fun c => (fun s => update_CRC s T 0)^[WINSIZE] (update_CRC 0 T c)) R 256 c

/-! ## `FastTableBuild` -/

/-- The seven entries written by the halving loop entered at `i = 64`. -/
theorem halvingLoop_64 (T : Nat → Nat) (r : Nat) :
    halvingLoop T r 64 =
      store (store (store (store (store (store (store T
        64 (crcRound^[1] r)) 32 (crcRound^[2] r)) 16 (crcRound^[3] r)) 8 (crcRound^[4] r))
        4 (crcRound^[5] r)) 2 (crcRound^[6] r)) 1 (crcRound^[7] r) := by
  simp [halvingLoop]

theorem combineLoop_upto (T : Nat → Nat) (i m : Nat) (hm : m ≤ i) (k : Nat) :
    forLoop 1 (m + 1) (fun j T => store T (i + j) (T i ^^^ T j)) T k =
      if i < k ∧ k < i + (m + 1) then T i ^^^ T (k - i) else T k := by
  induction m generalizing k with
  | zero =>
    rw [forLoop_of_le (Nat.le_refl _), if_neg (by omega)]
  | succ m ih =>
    have ih' := fun k => ih (by omega) k
    rw [forLoop_succ (by omega)]
    simp only [store_apply, ih']
    rw [if_neg (by omega : ¬ (i < i ∧ i < i + (m + 1))),
      if_neg (by omega : ¬ (i < m + 1 ∧ m + 1 < i + (m + 1)))]
    by_cases hk : k = i + (m + 1)
    · subst hk
      rw [if_pos rfl, if_pos (by omega), Nat.add_sub_cancel_left]
    · rw [if_neg hk]
      by_cases h1 : i < k ∧ k < i + (m + 1)
      · rw [if_pos h1, if_pos (by omega)]
      · rw [if_neg h1, if_neg (by omega)]

theorem combineLoop_apply (T : Nat → Nat) (i k : Nat) :
    combineLoop T i k = if i < k ∧ k < 2 * i then T i ^^^ T (k - i) else T k := by
  rcases Nat.eq_zero_or_pos i with h | h
  · subst h
    rw [combineLoop, forLoop_of_le (by decide), if_neg (by omega)]
  · obtain ⟨m, rfl⟩ : ∃ m, i = m + 1 := ⟨i - 1, by omega⟩
    rw [combineLoop]
    rw [combineLoop_upto T (m + 1) m (by omega) k]
    by_cases h1 : m + 1 < k ∧ k < 2 * (m + 1)
    · rw [if_pos h1, if_pos (by omega)]
    · rw [if_neg h1, if_neg (by omega)]

/-- The doubling loop entered at `i = 2` runs the inner loop for `i = 2, 4, ..., 128`. -/
theorem doublingLoop_2 (T : Nat → Nat) :
    doublingLoop T 2 (by decide) =
      combineLoop (combineLoop (combineLoop (combineLoop (combineLoop (combineLoop
        (combineLoop T 2) 4) 8) 16) 32) 64) 128 := by
  simp [doublingLoop]

theorem stage_stable (T : Nat → Nat) (n d k : Nat) (hk : k ≤ 2 ^ (n + 1)) :
    stage T (n + d) k = stage T n k := by
  induction d with
  | zero => rfl
  | succ d ih =>
    have h2 : 2 ^ (n + 1) ≤ 2 ^ (n + d + 1) := Nat.pow_le_pow_right (by decide) (by omega)
    show combineLoop (stage T (n + d)) (2 ^ (n + d + 1)) k = _
    rw [combineLoop_apply, if_neg (by omega), ih]

theorem stage_low (T : Nat → Nat) (n k : Nat) (hk : k ≤ 2) : stage T n k = T k := by
  have h := stage_stable T 0 n k (by simpa using hk)
  rw [Nat.zero_add] at h
  exact h

theorem stage_pow (T : Nat → Nat) (n e : Nat) : stage T n (2 ^ e) = T (2 ^ e) := by
  induction n with
  | zero => rfl
  | succ n ih =>
    show combineLoop (stage T n) (2 ^ (n + 1)) (2 ^ e) = _
    rw [combineLoop_apply, if_neg, ih]
    rintro ⟨h1, h2⟩
    have h3 : 2 ^ e < 2 ^ (n + 2) := by rw [Nat.pow_succ 2 (n + 1)]; omega
    have h4 := (Nat.pow_lt_pow_iff_right (by decide : 1 < 2)).1 h1
    have h5 := (Nat.pow_lt_pow_iff_right (by decide : 1 < 2)).1 h3
    omega

theorem stage_combine (T : Nat → Nat) (n d j : Nat) (h1 : 1 ≤ j) (h2 : j < 2 ^ (n + 1)) :
    stage T (n + 1 + d) (2 ^ (n + 1) + j) =
      stage T (n + 1 + d) (2 ^ (n + 1)) ^^^ stage T (n + 1 + d) j := by
  have e : 2 ^ (n + 1 + 1) = 2 * 2 ^ (n + 1) := by rw [Nat.pow_succ 2 (n + 1)]; omega
  rw [stage_stable T (n + 1) d _ (by omega), stage_pow, stage_stable T (n + 1) d j (by omega)]
  show combineLoop (stage T n) (2 ^ (n + 1)) _ = _ ^^^ combineLoop (stage T n) (2 ^ (n + 1)) j
  rw [combineLoop_apply, combineLoop_apply, if_pos (by omega), if_neg (by omega), stage_pow,
    Nat.add_sub_cancel_left]

theorem FastTableBuild_eq_stage (T : Nat → Nat) (seed : Nat) :
    FastTableBuild T seed = stage (halvingLoop (store (store T 0 0) 128 seed) seed 64) 7 := by
  simp only [FastTableBuild, doublingLoop_2, stage]
  norm_num

theorem FastTableBuild_pow (T : Nat → Nat) (seed e : Nat) (he : e ≤ 7) :
    FastTableBuild T seed (2 ^ e) = crcRound^[7 - e] seed := by
  rw [FastTableBuild_eq_stage, stage_pow, halvingLoop_64]
  interval_cases e <;> simp [store_apply]

theorem FastTableBuild_doubling (T : Nat → Nat) (seed : Nat) :
    DoublingTable seed (FastTableBuild T seed) := by
  refine ⟨?_, ?_, ?_, ?_⟩
  · rw [FastTableBuild_eq_stage, stage_low _ _ _ (by decide), halvingLoop_64]
    simp [store_apply]
  · exact FastTableBuild_pow T seed 7 (Nat.le_refl 7)
  · intro e he
    rw [FastTableBuild_pow T seed e (by omega), FastTableBuild_pow T seed (e + 1) (by omega),
      ← Function.iterate_succ_apply' crcRound]
    congr 2
    omega
  · intro e he j h1 h2
    have h := stage_combine (halvingLoop (store (store T 0 0) 128 seed) seed 64) e (6 - e) j h1 h2
    rw [show e + 1 + (6 - e) = 7 by omega] at h
    rw [FastTableBuild_eq_stage]
    exact h

/-- Outside of `0..255` the array is not touched. -/
theorem FastTableBuild_frame (T : Nat → Nat) (seed k : Nat) (hk : 256 ≤ k) :
    FastTableBuild T seed k = T k := by
  rw [FastTableBuild_eq_stage]
  have h : ∀ n, n ≤ 7 → stage (halvingLoop (store (store T 0 0) 128 seed) seed 64) n k =
      halvingLoop (store (store T 0 0) 128 seed) seed 64 k := by
    intro n
    induction n with
    | zero => intro _; rfl
    | succ n ih =>
      intro hn
      have h2 : 2 ^ (n + 1) ≤ 2 ^ 7 := Nat.pow_le_pow_right (by decide) hn
      show combineLoop _ (2 ^ (n + 1)) k = _
      rw [combineLoop_apply, if_neg (by omega), ih (by omega)]
  rw [h 7 (Nat.le_refl 7), halvingLoop_64]
  simp only [store_apply]
  repeat rw [if_neg (by omega)]

/-- A table with the doubling structure is determined by its seed on `0..255`. -/
theorem DoublingTable.unique {seed : Nat} {F G : Nat → Nat} (hF : DoublingTable seed F)
    (hG : DoublingTable seed G) : ∀ k, k < 256 → F k = G k := by
  obtain ⟨f0, f128, fh, fc⟩ := hF
  obtain ⟨g0, g128, gh, gc⟩ := hG
  have hp : ∀ d, d ≤ 7 → F (2 ^ (7 - d)) = G (2 ^ (7 - d)) := by
    intro d
    induction d with
    | zero => intro _; exact f128.trans g128.symm
    | succ d ih =>
      intro hd
      have e : 7 - (d + 1) + 1 = 7 - d := by omega
      rw [fh (7 - (d + 1)) (by omega), gh (7 - (d + 1)) (by omega), e, ih (by omega)]
  have hpow : ∀ e, e ≤ 7 → F (2 ^ e) = G (2 ^ e) := by
    intro e he
    have h := hp (7 - e) (by omega)
    rwa [show 7 - (7 - e) = e by omega] at h
  intro k
  induction k using Nat.strong_induction_on with
  | _ k ih =>
    intro hk
    rcases Nat.eq_zero_or_pos k with h0 | h0
    · rw [h0, f0, g0]
    · have hlog : 2 ^ Nat.log2 k ≤ k := Nat.log2_self_le (by omega)
      have hlt : k < 2 ^ (Nat.log2 k + 1) := Nat.lt_log2_self
      have hle : Nat.log2 k < 8 := by
        by_contra hc
        have : 2 ^ 8 ≤ 2 ^ Nat.log2 k := Nat.pow_le_pow_right (by decide) (by omega)
        omega
      rcases Nat.eq_or_lt_of_le hlog with heq | hne
      · rw [← heq]; exact hpow _ (by omega)
      · rcases Nat.eq_zero_or_pos (Nat.log2 k) with hz | hz
        · rw [hz] at hne hlt; omega
        · obtain ⟨e, he⟩ : ∃ e, Nat.log2 k = e + 1 := ⟨Nat.log2 k - 1, by omega⟩
          rw [he] at hne hlt hlog
          have e2 : 2 ^ (e + 1 + 1) = 2 * 2 ^ (e + 1) := by rw [Nat.pow_succ 2 (e + 1)]; omega
          have hk' : k = 2 ^ (e + 1) + (k - 2 ^ (e + 1)) := by omega
          rw [hk', fc e (by omega) _ (by omega) (by omega), gc e (by omega) _ (by omega) (by omega),
            hpow (e + 1) (by omega), ih (k - 2 ^ (e + 1)) (by omega) (by omega)]

/-! ## The classic table -/

theorem two_pow_add_eq_xor {n j : Nat} (h : j < 2 ^ n) : 2 ^ n + j = 2 ^ n ^^^ j := by
  apply Nat.eq_of_testBit_eq
  intro i
  rw [Nat.testBit_xor, Nat.testBit_two_pow]
  rcases Nat.lt_trichotomy i n with hi | hi | hi
  · rw [Nat.testBit_two_pow_add_gt hi]
    simp [Nat.ne_of_gt hi]
  · subst hi
    rw [Nat.testBit_two_pow_add_eq, Nat.testBit_lt_two_pow h]
    simp
  · have h1 : 2 ^ n + j < 2 ^ i := by
      have : 2 ^ (n + 1) ≤ 2 ^ i := Nat.pow_le_pow_right (by decide) hi
      rw [Nat.pow_succ] at this
      omega
    rw [Nat.testBit_lt_two_pow h1, Nat.testBit_lt_two_pow (by omega : j < 2 ^ i)]
    simp [Nat.ne_of_lt hi]

theorem crcRound_iterate_comm (n r : Nat) : crcRound^[n] (crcRound r) = crcRound (crcRound^[n] r) := by
  rw [← Function.iterate_succ_apply, Function.iterate_succ_apply']

theorem crcRound_iterate_128 : crcRound^[8] 128 = kCrcPoly := by
  have h := crcRound_iterate_shift 7 1
  rw [Function.iterate_succ_apply', show (128 : Nat) = 2 ^ 7 * 1 by norm_num, h]
  simp [crcRound_eq]

theorem classic_doubling : DoublingTable kCrcPoly (fun i => crcRound^[8] i) := by
  refine ⟨crcRound_iterate_zero 8, crcRound_iterate_128, ?_, ?_⟩
  · intro e _
    show crcRound^[8] (2 ^ e) = crcRound (crcRound^[8] (2 ^ (e + 1)))
    rw [← crcRound_iterate_comm, Nat.pow_succ, Nat.mul_comm, crcRound_double]
  · intro e _ j _ h2
    show crcRound^[8] (2 ^ (e + 1) + j) = _
    rw [two_pow_add_eq_xor h2, crcRound_iterate_xor]

theorem FastTableBuild_kCrcPoly (T : Nat → Nat) (i : Nat) (hi : i < 256) :
    FastTableBuild T kCrcPoly i = crcRound^[8] i :=
  DoublingTable.unique (FastTableBuild_doubling T kCrcPoly) classic_doubling i hi

theorem XorLinear.of_iterate {T : Nat → Nat} (h : ∀ i, i < 256 → T i = crcRound^[8] i) :
    XorLinear T := by
  intro a b ha hb
  have hab : a ^^^ b < 2 ^ 8 := Nat.xor_lt_two_pow ha hb
  rw [h _ hab, h a ha, h b hb, crcRound_iterate_xor]

theorem XorLinear.zero {T : Nat → Nat} (h : XorLinear T) : T 0 = 0 := by
  have := h 0 0 (by decide) (by decide)
  simp only [Nat.xor_self] at this
  have e : T 0 ^^^ T 0 = 0 := Nat.xor_self _
  omega

/-! ## Linearity of the update step -/

theorem and_255_lt (x : Nat) : x &&& 0xFF < 256 :=
  Nat.lt_of_le_of_lt Nat.and_le_right (by decide)

theorem shiftRight_xor (a b n : Nat) : (a ^^^ b) >>> n = a >>> n ^^^ b >>> n := by
  apply Nat.eq_of_testBit_eq
  intro i
  simp only [Nat.testBit_shiftRight, Nat.testBit_xor]

theorem update_CRC_xor {T : Nat → Nat} (hT : XorLinear T) (s₁ s₂ c₁ c₂ : Nat) :
    update_CRC (s₁ ^^^ s₂) T (c₁ ^^^ c₂) = update_CRC s₁ T c₁ ^^^ update_CRC s₂ T c₂ := by
  simp only [update_CRC]
  have e : (s₁ ^^^ s₂ ^^^ (c₁ ^^^ c₂)) &&& 0xFF = ((s₁ ^^^ c₁) &&& 0xFF) ^^^ ((s₂ ^^^ c₂) &&& 0xFF) := by
    rw [← Nat.and_xor_distrib_right]
    congr 1
    simp only [Nat.xor_assoc, xor_left_comm]
  rw [e, hT _ _ (and_255_lt _) (and_255_lt _), shiftRight_xor]
  simp only [Nat.xor_assoc, xor_left_comm]

theorem update_CRC_zero_xor {T : Nat → Nat} (hT : XorLinear T) (s₁ s₂ : Nat) :
    update_CRC (s₁ ^^^ s₂) T 0 = update_CRC s₁ T 0 ^^^ update_CRC s₂ T 0 := by
  have h := update_CRC_xor hT s₁ s₂ 0 0
  rwa [Nat.xor_self] at h

theorem update_CRC_same_byte {T : Nat → Nat} (hT : XorLinear T) (s₁ s₂ c : Nat) :
    update_CRC s₁ T c ^^^ update_CRC s₂ T c = update_CRC (s₁ ^^^ s₂) T 0 := by
  have h := update_CRC_xor hT s₁ s₂ c c
  rw [Nat.xor_self] at h
  exact h.symm

theorem zeroSteps_xor {T : Nat → Nat} (hT : XorLinear T) (n s₁ s₂ : Nat) :
    (fun s => update_CRC s T 0)^[n] (s₁ ^^^ s₂) =
      (fun s => update_CRC s T 0)^[n] s₁ ^^^ (fun s => update_CRC s T 0)^[n] s₂ := by
  induction n with
  | zero => rfl
  | succ n ih =>
    simp only [Function.iterate_succ_apply', ih]
    exact update_CRC_zero_xor hT _ _

/-! ## The rolling update -/

theorem calcCRC_eq (v : Nat) (buffer : Nat → Nat) (len : Nat) (T : Nat → Nat) :
    calcCRC v buffer len T = finish_CRC v (crcState T buffer len (init_CRC v)) := rfl

theorem crcState_zero (T buffer : Nat → Nat) (s : Nat) : crcState T buffer 0 s = s :=
  forLoop_of_le (Nat.le_refl 0) _ s

theorem crcState_succ (T buffer : Nat → Nat) (n s : Nat) :
    crcState T buffer (n + 1) s = update_CRC (crcState T buffer n s) T (buffer n) :=
  forLoop_succ (Nat.zero_le n) _ s

theorem crcState_first (T buffer : Nat → Nat) (n s : Nat) :
    crcState T buffer (n + 1) s = crcState T (offset buffer 1) n (update_CRC s T (buffer 0)) := by
  induction n with
  | zero => rw [crcState_succ, crcState_zero, crcState_zero]
  | succ n ih =>
    rw [crcState_succ, ih, crcState_succ]
    simp only [offset, Nat.add_comm 1 n]

theorem crcState_diff {T : Nat → Nat} (hT : XorLinear T) (buffer : Nat → Nat) (n s₁ s₂ : Nat) :
    crcState T buffer n s₁ ^^^ crcState T buffer n s₂ =
      (fun s => update_CRC s T 0)^[n] (s₁ ^^^ s₂) := by
  induction n with
  | zero => rw [crcState_zero, crcState_zero]; rfl
  | succ n ih =>
    rw [crcState_succ, crcState_succ, update_CRC_same_byte hT, ih, Function.iterate_succ_apply']

theorem offset_offset (buffer : Nat → Nat) (k m : Nat) :
    offset (offset buffer k) m = offset buffer (k + m) := by
  funext i
  simp only [offset, Nat.add_assoc]

theorem xor_eq_of_xor_eq {a b c : Nat} (h : a ^^^ b = c) : b = a ^^^ c := by
  rw [← h, Nat.xor_cancel_left]

/-- One step of the sliding window: the state of the window at `k + 1` from the state of the
window at `k`. -/
theorem window_step {T : Nat → Nat} (hT : XorLinear T) (v : Nat) (buffer : Nat → Nat)
    (w k : Nat) :
    crcState T (offset buffer (k + 1)) (w + 1) v =
      update_CRC (crcState T (offset buffer k) (w + 1) v) T (buffer (w + 1 + k)) ^^^
        ((fun s => update_CRC s T 0)^[w + 1] (update_CRC v T (buffer k)) ^^^
          (fun s => update_CRC s T 0)^[w] (update_CRC v T 0)) := by
  apply xor_eq_of_xor_eq
  rw [crcState_succ T (offset buffer (k + 1)), crcState_first T (offset buffer k), offset_offset]
  have e1 : offset buffer (k + 1) w = buffer (w + 1 + k) := by
    simp only [offset]; congr 1; omega
  have e2 : offset buffer k 0 = buffer k := rfl
  rw [e1, e2, update_CRC_same_byte hT, crcState_diff hT,
    ← Function.iterate_succ_apply' (fun s => update_CRC s T 0), zeroSteps_xor hT,
    Function.iterate_succ_apply (fun s => update_CRC s T 0) w v]

theorem finish_finish (v s : Nat) : finish_CRC v (finish_CRC v s) = s := by
  simp only [finish_CRC, Nat.xor_assoc, Nat.xor_self, Nat.xor_zero]

/-- The loop of the incremental computation keeps the state of the current window. -/
theorem rolling_invariant {T R : Nat → Nat} (hT : XorLinear T) (v : Nat) (buffer : Nat → Nat)
    (hR : ∀ c, c < 256 → R c = rollingEntry v T c) (k : Nat)
    (hb : ∀ i, i < k → buffer i < 256) :
    forLoop 0 k (fun i crc2 => update_CRC crc2 T (buffer (WINSIZE + i)) ^^^ R (buffer i))
        (crcState T buffer WINSIZE v) =
      crcState T (offset buffer k) WINSIZE v := by
  induction k with
  | zero =>
    rw [forLoop_of_le (Nat.le_refl 0)]
    rfl
  | succ k ih =>
    rw [forLoop_succ (Nat.zero_le k), ih (fun i hi => hb i (by omega)),
      hR _ (hb k (by omega)), rollingEntry_eq]
    exact (window_step hT v buffer 99 k).symm

theorem rolling_equivalence {T R : Nat → Nat} (hT : XorLinear T) (v : Nat) (buffer : Nat → Nat)
    (hR : ∀ c, c < 256 → R c = rollingEntry v T c) (k : Nat)
    (hb : ∀ i, i < k → buffer i < 256) :
    calcCRC v (offset buffer k) WINSIZE T = rollCRC v buffer k T R := by
  simp only [rollCRC, calcCRC_eq, finish_finish, init_CRC]
  rw [rolling_invariant hT v buffer hR k hb]

/-! ## Tables that agree with the bitwise table on bytes -/

theorem classicTable_isBase (J : Nat → Nat) : IsBaseTable (classicTable J) := by
  intro i hi
  rw [classicTable_apply, if_pos hi]

theorem FastTableBuild_isBase (J : Nat → Nat) : IsBaseTable (FastTableBuild J kCrcPoly) :=
  fun i hi => FastTableBuild_kCrcPoly J i hi

theorem IsBaseTable.xorLinear {T : Nat → Nat} (h : IsBaseTable T) : XorLinear T :=
  XorLinear.of_iterate h

theorem split_low_byte (x : Nat) : x = (x &&& 0xFF) ^^^ 2 ^ 8 * (x >>> 8) := by
  apply Nat.eq_of_testBit_eq
  intro i
  have e : (0xFF : Nat) = 2 ^ 8 - 1 := by decide
  rw [Nat.testBit_xor, Nat.testBit_and, e, Nat.testBit_two_pow_sub_one, Nat.testBit_mul_pow_two,
    Nat.testBit_shiftRight]
  by_cases h : i < 8
  · simp [h, Nat.not_le.2 h]
  · have h' : 8 ≤ i := Nat.le_of_not_lt h
    simp [h, h', Nat.add_sub_cancel' h']

/-- On a base table the table-driven update is eight bit rounds of `crc ^ c`. -/
theorem update_CRC_base {T : Nat → Nat} (hT : IsBaseTable T) (s c : Nat) (hc : c < 256) :
    update_CRC s T c = crcRound^[8] (s ^^^ c) := by
  have hs : s >>> 8 = (s ^^^ c) >>> 8 := by
    rw [shiftRight_xor, Nat.shiftRight_eq_div_pow c 8, Nat.div_eq_of_lt hc, Nat.xor_zero]
  have hx := split_low_byte (s ^^^ c)
  rw [update_CRC, hT _ (and_255_lt _), hs]
  conv_rhs => rw [hx, crcRound_iterate_xor, crcRound_iterate_shift]

theorem zeroSteps_base {T : Nat → Nat} (hT : IsBaseTable T) (n s : Nat) :
    (fun s => update_CRC s T 0)^[n] s = crcRound^[8 * n] s := by
  have e : (fun s => update_CRC s T 0) = crcRound^[8] := by
    funext s
    rw [update_CRC_base hT s 0 (by decide), Nat.xor_zero]
  rw [e, ← Function.iterate_mul]

/-- The entries of the brute-force rolling table over a base table, as bit rounds. -/
theorem rollingEntry_base {T : Nat → Nat} (hT : IsBaseTable T) (v c : Nat) (hc : c < 256) :
    rollingEntry v T c = crcRound^[808] (v ^^^ c) ^^^ crcRound^[800] v := by
  rw [rollingEntry_eq, zeroSteps_base hT, zeroSteps_base hT, update_CRC_base hT v c hc,
    update_CRC_base hT v 0 (by decide), Nat.xor_zero, ← Function.iterate_add_apply,
    ← Function.iterate_add_apply]
  rfl

theorem rollingEntry_base_zero {T : Nat → Nat} (hT : IsBaseTable T) (c : Nat) (hc : c < 256) :
    rollingEntry 0 T c = crcRound^[808] c := by
  rw [rollingEntry_base hT 0 c hc, crcRound_iterate_zero, Nat.zero_xor, Nat.xor_zero]

/-- Iterated bit rounds have the doubling structure, whatever the number of rounds. -/
theorem iterate_doubling (n : Nat) :
    DoublingTable (crcRound^[n] 128) (fun i => crcRound^[n] i) := by
  refine ⟨crcRound_iterate_zero n, rfl, ?_, ?_⟩
  · intro e _
    show crcRound^[n] (2 ^ e) = crcRound (crcRound^[n] (2 ^ (e + 1)))
    rw [← crcRound_iterate_comm, Nat.pow_succ, Nat.mul_comm, crcRound_double]
  · intro e _ j _ h2
    show crcRound^[n] (2 ^ (e + 1) + j) = _
    rw [two_pow_add_eq_xor h2, crcRound_iterate_xor]

/-- The doubling structure only concerns the entries `0..255`. -/
theorem DoublingTable.congr {seed : Nat} {F G : Nat → Nat} (hF : DoublingTable seed F)
    (h : ∀ i, i < 256 → G i = F i) : DoublingTable seed G := by
  obtain ⟨f0, f128, fh, fc⟩ := hF
  have hp : ∀ e, e ≤ 7 → 2 ^ e < 256 := by
    intro e he
    have : 2 ^ e ≤ 2 ^ 7 := Nat.pow_le_pow_right (by decide) he
    omega
  refine ⟨?_, ?_, ?_, ?_⟩
  · rw [h 0 (by decide), f0]
  · rw [h 128 (by decide), f128]
  · intro e he
    rw [h _ (hp e (by omega)), h _ (hp (e + 1) (by omega)), fh e he]
  · intro e he j h1 h2
    have h3 := hp (e + 1) (by omega)
    have h4 : 2 ^ (e + 1 + 1) ≤ 2 ^ 8 := Nat.pow_le_pow_right (by decide) (by omega)
    rw [Nat.pow_succ 2 (e + 1)] at h4
    rw [h _ (by omega), h _ h3, h j (by omega), fc e he j h1 h2]

theorem mem_powers {i : Nat} (hi : i ∈ [1, 2, 4, 8, 16, 32, 64, 128]) :
    ∃ e, e ≤ 7 ∧ i = 2 ^ e := by
  simp only [List.mem_cons, List.mem_singleton, List.not_mem_nil, or_false] at hi
  rcases hi with h | h | h | h | h | h | h | h
  · exact ⟨0, by decide, h⟩
  · exact ⟨1, by decide, h⟩
  · exact ⟨2, by decide, h⟩
  · exact ⟨3, by decide, h⟩
  · exact ⟨4, by decide, h⟩
  · exact ⟨5, by decide, h⟩
  · exact ⟨6, by decide, h⟩
  · exact ⟨7, by decide, h⟩

theorem two_pow_add_lt {e j : Nat} (he : e ≤ 7) (hj : j < 2 ^ e) : 2 ^ e + j < 256 := by
  have h : 2 ^ (e + 1) ≤ 2 ^ 8 := Nat.pow_le_pow_right (by decide) (by omega)
  rw [Nat.pow_succ] at h
  omega

/-- A table that is an XOR-linear function `A` of the byte plus a constant `K` satisfies
the doubling recurrence up to `K`. -/
theorem affine_doubling {T A : Nat → Nat} {K : Nat} (hA : ∀ a b, A (a ^^^ b) = A a ^^^ A b)
    (hT : ∀ c, c < 256 → T c = A c ^^^ K) :
    ∀ i ∈ [1, 2, 4, 8, 16, 32, 64, 128], ∀ j, j < i → T (i + j) = T i ^^^ T j ^^^ K := by
  intro i hi j hj
  obtain ⟨e, he, rfl⟩ := mem_powers hi
  have h1 := two_pow_add_lt he hj
  rw [hT _ h1, hT (2 ^ e) (by omega), hT j (by omega), two_pow_add_eq_xor hj, hA]
  simp only [Nat.xor_assoc, xor_left_comm, Nat.xor_self, Nat.xor_zero]

theorem linear_doublingInvariant {T A : Nat → Nat} (hA : ∀ a b, A (a ^^^ b) = A a ^^^ A b)
    (hT : ∀ c, c < 256 → T c = A c) : DoublingInvariant T := by
  have h0 : A 0 = 0 := by
    have h := hA 0 0
    rw [Nat.xor_self] at h
    have e : A 0 ^^^ A 0 = 0 := Nat.xor_self _
    omega
  refine ⟨by rw [hT 0 (by decide), h0], ?_⟩
  intro i hi j hj
  have hT0 : ∀ c, c < 256 → T c = A c ^^^ 0 := fun c hc => by rw [hT c hc, Nat.xor_zero]
  have h := affine_doubling hA hT0 i hi j hj
  rwa [Nat.xor_zero] at h

theorem zeroSteps_zero {T : Nat → Nat} (hT : XorLinear T) (n : Nat) :
    (fun s => update_CRC s T 0)^[n] 0 = 0 := by
  induction n with
  | zero => rfl
  | succ n ih =>
    rw [Function.iterate_succ_apply', ih]
    simp [update_CRC, hT.zero]

theorem inlineRollingTable_eq_rollingEntry {T : Nat → Nat} (hT : XorLinear T) (R : Nat → Nat)
    (c : Nat) (hc : c < 256) : inlineRollingTable T R c = rollingEntry 0 T c := by
  have h0 : update_CRC 0 T 0 = 0 := by simp [update_CRC, hT.zero]
  rw [inlineRollingTable_apply, if_pos hc, rollingEntry_eq, h0, zeroSteps_zero hT, Nat.xor_zero]

theorem crcRound_eq_fun :
    crcRound = fun r => (r >>> 1) ^^^ (if r % 2 = 1 then kCrcPoly else 0) := by
  funext r
  rw [crcRound_eq, Nat.shiftRight_eq_div_pow]

/-! ## The rolling table for the all-ones initial value -/

theorem allOnes_rolling_apply (FastCRCTab₀ RollingCRCTab₀ : Nat → Nat) (c : Nat) (hc : c < 256) :
    BuildRollingCRCTable 0xFFFFFFFF (FastTableBuild FastCRCTab₀ kCrcPoly) RollingCRCTab₀ c =
      crcRound^[808] (0xFFFFFFFF ^^^ c) ^^^ crcRound^[800] 0xFFFFFFFF := by
  rw [BuildRollingCRCTable_apply, if_pos hc,
    rollingEntry_base (FastTableBuild_isBase FastCRCTab₀) _ c hc]

set_option maxRecDepth 100000 in
theorem allOnes_values :
    crcRound^[808] (0xFFFFFFFF ^^^ 0) ^^^ crcRound^[800] 0xFFFFFFFF = 0x30A28A2F ∧
    crcRound^[808] (0xFFFFFFFF ^^^ 1) ^^^ crcRound^[800] 0xFFFFFFFF = 0xBE69FA10 ∧
    crcRound^[808] (0xFFFFFFFF ^^^ 2) ^^^ crcRound^[800] 0xFFFFFFFF = 0xF6456C10 ∧
    crcRound^[808] (0xFFFFFFFF ^^^ (2 + 1)) ^^^ crcRound^[800] 0xFFFFFFFF = 0x788E1C2F := by
  refine ⟨?_, ?_, ?_, ?_⟩ <;> decide

/-! ## Further lemmas on the checksum loop -/

theorem update_CRC_congr {T T' : Nat → Nat} (h : ∀ i, i < 256 → T i = T' i) (s c : Nat) :
    update_CRC s T c = update_CRC s T' c := by
  rw [update_CRC, update_CRC, h _ (and_255_lt _)]

theorem crcState_congr {T T' : Nat → Nat} (h : ∀ i, i < 256 → T i = T' i)
    (buffer : Nat → Nat) (n s : Nat) : crcState T buffer n s = crcState T' buffer n s := by
  induction n with
  | zero => rw [crcState_zero, crcState_zero]
  | succ n ih => rw [crcState_succ, crcState_succ, ih, update_CRC_congr h]

theorem crcState_add (T buffer : Nat → Nat) (n m s : Nat) :
    crcState T buffer (n + m) s = crcState T (offset buffer n) m (crcState T buffer n s) := by
  induction m with
  | zero => rw [Nat.add_zero, crcState_zero]
  | succ m ih =>
    rw [← Nat.add_assoc, crcState_succ, ih, crcState_succ]
    rfl

theorem crcState_zeros (T buffer : Nat → Nat) (n s : Nat) (h : ∀ i, i < n → buffer i = 0) :
    crcState T buffer n s = (fun s => update_CRC s T 0)^[n] s := by
  induction n with
  | zero => rw [crcState_zero]; rfl
  | succ n ih =>
    rw [crcState_succ, ih (fun i hi => h i (by omega)), h n (by omega),
      Function.iterate_succ_apply']

theorem offset_after_zeros (b : Nat → Nat) (n : Nat) :
    offset (fun i => if i < n then 0 else b (i - n)) n = b := by
  funext i
  simp only [offset]
  rw [if_neg (by omega), Nat.add_sub_cancel_left]

/-- With initial value `0`, leading zero bytes leave the state at `0`. -/
theorem calcCRC_leading_zeros {T : Nat → Nat} (hT : XorLinear T) (n : Nat) (b : Nat → Nat)
    (len : Nat) :
    calcCRC 0 (fun i => if i < n then 0 else b (i - n)) (n + len) T = calcCRC 0 b len T := by
  rw [calcCRC_eq, calcCRC_eq, crcState_add, offset_after_zeros,
    crcState_zeros T _ n _ (fun i hi => if_pos hi)]
  simp only [init_CRC]
  rw [zeroSteps_zero hT]

theorem calcCRC_all_zeros {T : Nat → Nat} (hT : XorLinear T) (n : Nat) :
    calcCRC 0 (fun _ => 0) n T = 0 := by
  rw [calcCRC_eq, crcState_zeros T _ n _ (fun _ _ => rfl)]
  simp only [init_CRC]
  rw [zeroSteps_zero hT]
  rfl

theorem crcRound_iterate_lt (n : Nat) {r : Nat} (h : r < 2 ^ 32) : crcRound^[n] r < 2 ^ 32 := by
  induction n with
  | zero => exact h
  | succ n ih =>
    rw [Function.iterate_succ_apply']
    exact crcRound_lt ih

theorem crcState_after_first (T : Nat → Nat) (c n : Nat) :
    crcState T (fun i => if i = 0 then c else 0) (n + 1) 0 =
      (fun s => update_CRC s T 0)^[n] (update_CRC 0 T c) := by
  rw [crcState_first, crcState_zeros T _ n _ (fun i _ => by simp only [offset]; rw [if_neg (by omega)])]
  rfl

theorem calcCRC_congr {T T' : Nat → Nat} (h : ∀ i, i < 256 → T i = T' i) (v : Nat)
    (buffer : Nat → Nat) (len : Nat) : calcCRC v buffer len T = calcCRC v buffer len T' := by
  rw [calcCRC_eq, calcCRC_eq, crcState_congr h]

set_option maxRecDepth 100000 in
theorem check_value :
    calcCRC 0xFFFFFFFF (fun i => [0x31, 0x32, 0x33, 0x34, 0x35, 0x36, 0x37, 0x38, 0x39].getD i 0)
      9 (fun i => crcRound^[8] i) = 0xCBF43926 := by
  decide

/-! ## The array accesses of `FastTableBuild` -/

set_option maxRecDepth 100000 in
theorem fastTrace_index : ∀ a ∈ fastTrace, a.index < 256 := by
  decide

set_option maxRecDepth 100000 in
theorem fastTrace_reads : readsWritten [] fastTrace = true := by
  decide

theorem write_mem_combineTrace (i m j : Nat) (h1 : 1 ≤ j) (h2 : j ≤ m) :
    Access.write (i + j) ∈ combineTrace i m := by
  induction m with
  | zero => omega
  | succ m ih =>
    rw [combineTrace, List.mem_append]
    rcases Nat.eq_or_lt_of_le h2 with h | h
    · right
      rw [h]
      simp
    · left
      exact ih (by omega)

theorem fastTrace_writes : ∀ k, k < 256 → Access.write k ∈ fastTrace := by
  intro k hk
  have hmid : ∀ i, 1 ≤ k - i → k - i ≤ i - 1 → Access.write k ∈ combineTrace i (i - 1) := by
    intro i h1 h2
    have h := write_mem_combineTrace i (i - 1) (k - i) h1 h2
    rwa [show i + (k - i) = k by omega] at h
  have hcases : (k = 0 ∨ k = 128 ∨ k = 64 ∨ k = 32 ∨ k = 16 ∨ k = 8 ∨ k = 4 ∨ k = 2 ∨ k = 1) ∨
      (1 ≤ k - 2 ∧ k - 2 ≤ 2 - 1) ∨ (1 ≤ k - 4 ∧ k - 4 ≤ 4 - 1) ∨ (1 ≤ k - 8 ∧ k - 8 ≤ 8 - 1) ∨
      (1 ≤ k - 16 ∧ k - 16 ≤ 16 - 1) ∨ (1 ≤ k - 32 ∧ k - 32 ≤ 32 - 1) ∨
      (1 ≤ k - 64 ∧ k - 64 ≤ 64 - 1) ∨ (1 ≤ k - 128 ∧ k - 128 ≤ 128 - 1) := by omega
  simp only [fastTrace, List.mem_append]
  rcases hcases with h | h | h | h | h | h | h | h
  · repeat left
    simpa using h
  · exact Or.inl (Or.inl (Or.inl (Or.inl (Or.inl (Or.inl (Or.inr (hmid 2 h.1 h.2)))))))
  · exact Or.inl (Or.inl (Or.inl (Or.inl (Or.inl (Or.inr (hmid 4 h.1 h.2))))))
  · exact Or.inl (Or.inl (Or.inl (Or.inl (Or.inr (hmid 8 h.1 h.2)))))
  · exact Or.inl (Or.inl (Or.inl (Or.inr (hmid 16 h.1 h.2))))
  · exact Or.inl (Or.inl (Or.inr (hmid 32 h.1 h.2)))
  · exact Or.inl (Or.inr (hmid 64 h.1 h.2))
  · exact Or.inr (hmid 128 h.1 h.2)

theorem readsWritten_sound (tr : List Access) :
    ∀ (w : List Nat), readsWritten w tr = true → ∀ (pre : List Access) (i : Nat)
      (post : List Access), tr = pre ++ Access.read i :: post → i ∈ w ∨ Access.write i ∈ pre := by
  induction tr with
  | nil =>
    intro w _ pre i post h
    simp at h
  | cons a tr ih =>
    intro w hw pre i post h
    cases pre with
    | nil =>
      simp only [List.nil_append, List.cons.injEq] at h
      obtain ⟨ha, _⟩ := h
      subst ha
      simp only [readsWritten, Bool.and_eq_true, decide_eq_true_eq] at hw
      exact Or.inl hw.1
    | cons b pre =>
      simp only [List.cons_append, List.cons.injEq] at h
      obtain ⟨ha, htr⟩ := h
      subst ha
      cases a with
      | read k =>
        simp only [readsWritten, Bool.and_eq_true, decide_eq_true_eq] at hw
        rcases ih w hw.2 pre i post htr with h1 | h1
        · exact Or.inl h1
        · exact Or.inr (List.mem_cons_of_mem _ h1)
      | write k =>
        simp only [readsWritten] at hw
        rcases ih (k :: w) hw pre i post htr with h1 | h1
        · rcases List.mem_cons.1 h1 with h2 | h2
          · right
            rw [h2]
            exact List.mem_cons_self _ _
          · exact Or.inl h2
        · exact Or.inr (List.mem_cons_of_mem _ h1)

theorem halvingLoopTr_64 (S : (Nat → Nat) × List Access) (r : Nat) :
    halvingLoopTr S r 64 =
      (halvingLoop S.1 r 64,
        S.2 ++ [Access.write 64, Access.write 32, Access.write 16, Access.write 8,
          Access.write 4, Access.write 2, Access.write 1]) := by
  simp [halvingLoopTr, halvingLoop]

theorem combineLoopTr_upto (S : (Nat → Nat) × List Access) (i m : Nat) :
    forLoop 1 (m + 1) (fun j S =>
        (store S.1 (i + j) (S.1 i ^^^ S.1 j),
          S.2 ++ [Access.read i, Access.read j, Access.write (i + j)])) S =
      (forLoop 1 (m + 1) (fun j T => store T (i + j) (T i ^^^ T j)) S.1,
        S.2 ++ combineTrace i m) := by
  induction m with
  | zero =>
    rw [forLoop_of_le (Nat.le_refl _), forLoop_of_le (Nat.le_refl _)]
    simp [combineTrace]
  | succ m ih =>
    have e1 := @forLoop_succ ((Nat → Nat) × List Access) 1 (m + 1) (by omega)
      (fun j S => (store S.1 (i + j) (S.1 i ^^^ S.1 j),
        S.2 ++ [Access.read i, Access.read j, Access.write (i + j)])) S
    have e2 := @forLoop_succ (Nat → Nat) 1 (m + 1) (by omega)
      (fun j T => store T (i + j) (T i ^^^ T j)) S.1
    rw [e1, e2, ih]
    simp only [combineTrace, List.append_assoc]

theorem combineLoopTr_eq (S : (Nat → Nat) × List Access) (i : Nat) :
    combineLoopTr S i = (combineLoop S.1 i, S.2 ++ combineTrace i (i - 1)) := by
  rcases Nat.eq_zero_or_pos i with h | h
  · subst h
    rw [combineLoopTr, combineLoop, forLoop_of_le (by decide), forLoop_of_le (by decide)]
    simp [combineTrace]
  · obtain ⟨m, rfl⟩ : ∃ m, i = m + 1 := ⟨i - 1, by omega⟩
    rw [combineLoopTr, combineLoop, combineLoopTr_upto, Nat.add_sub_cancel]

theorem doublingLoopTr_2 (S : (Nat → Nat) × List Access) :
    doublingLoopTr S 2 (by decide) =
      combineLoopTr (combineLoopTr (combineLoopTr (combineLoopTr (combineLoopTr (combineLoopTr
        (combineLoopTr S 2) 4) 8) 16) 32) 64) 128 := by
  simp [doublingLoopTr]

/-- The instrumented function computes the table of `FastTableBuild`, and its trace does
not depend on the array contents or the seed. -/
theorem FastTableBuildTr_eq (T : Nat → Nat) (seed : Nat) :
    FastTableBuildTr T seed = (FastTableBuild T seed, fastTrace) := by
  simp only [FastTableBuildTr, FastTableBuild, doublingLoopTr_2, doublingLoop_2,
    halvingLoopTr_64, combineLoopTr_eq, fastTrace]
  simp only [List.append_assoc, List.cons_append, List.nil_append, Nat.add_one_sub_one]

/-! ## The properties of the specification -/

/-- C1: rolling equivalence in the default configuration (`CRC_INIT_VAL = 0`,
`WINSIZE = 100`).  With `CRCTab` the classic table and `RollingCRCTab` the table built
inline in `main`, for every buffer of `100 + N` bytes and every `k ≤ N` the direct checksum
of `buffer[k .. k+100]` equals the checksum of `buffer[0 .. 100]` advanced by `k` rolling
steps. -/
theorem rolling_equivalence_default (CRCTab₀ RollingCRCTab₀ : Nat → Nat) (N : Nat)
    (buffer : Nat → Nat) (hbuf : ∀ i, i < 100 + N → buffer i < 256) (k : Nat) (hk : k ≤ N) :
    calcCRC 0 (offset buffer k) 100 (classicTable CRCTab₀) =
      rollCRC 0 buffer k (classicTable CRCTab₀)
        (inlineRollingTable (classicTable CRCTab₀) RollingCRCTab₀) :=
  rolling_equivalence (classicTable_isBase CRCTab₀).xorLinear 0 buffer
    (fun c hc => inlineRollingTable_eq_rollingEntry (classicTable_isBase CRCTab₀).xorLinear _ c hc)
    k (fun i hi => hbuf i (by omega))

/-- The test of `main`, `crc1 == crc2`: `N = k = TESTSIZE = 200` on the test buffer. -/
theorem rolling_equivalence_default_witness :
    calcCRC 0 (offset testBuffer TESTSIZE) WINSIZE (classicTable (fun _ => 0)) =
      rollCRC 0 testBuffer TESTSIZE (classicTable (fun _ => 0))
        (inlineRollingTable (classicTable (fun _ => 0)) (fun _ => 0)) :=
  rolling_equivalence_default (fun _ => 0) (fun _ => 0) 200 testBuffer
    (fun i _ => Nat.mod_lt _ (by decide)) 200 (Nat.le_refl 200)

/-- C2: on every index `i` in `0..255`, `FastTableBuild` seeded with the polynomial gives
the entry of the classic table, which is eight rounds of
`r = (r >> 1) ^ (0xEDB88320 if r is odd, else 0)` started from `r = i`. -/
theorem FastTableBuild_eq_classicTable (FastCRCTab₀ CRCTab₀ : Nat → Nat) (i : Nat)
    (hi : i < 256) :
    FastTableBuild FastCRCTab₀ 0xEDB88320 i = classicTable CRCTab₀ i ∧
      classicTable CRCTab₀ i =
        (fun r => (r >>> 1) ^^^ (if r % 2 = 1 then 0xEDB88320 else 0))^[8] i := by
  have h := FastTableBuild_kCrcPoly FastCRCTab₀ i hi
  have e := crcRound_eq_fun
  rw [classicTable_isBase CRCTab₀ i hi]
  refine ⟨h, ?_⟩
  rw [e]
  rfl

/-- Entry `1` of the two tables. -/
theorem FastTableBuild_eq_classicTable_witness :
    FastTableBuild (fun _ => 0) 0xEDB88320 1 = classicTable (fun _ => 0) 1 ∧
      classicTable (fun _ => 0) 1 =
        (fun r => (r >>> 1) ^^^ (if r % 2 = 1 then 0xEDB88320 else 0))^[8] 1 :=
  FastTableBuild_eq_classicTable (fun _ => 0) (fun _ => 0) 1 (by decide)

/-- C3: in the default configuration (`CRC_INIT_VAL = 0`, `WINSIZE = 100`) the table that
`FastTableBuild` builds from entry `128` of the brute-force rolling table equals the
brute-force rolling table on every byte `c`; the brute-force table is the output of
`BuildRollingCRCTable` on the base table (the one `FastTableBuild` builds from the
polynomial, as in `main`, or the classic one). -/
theorem FastTableBuild_eq_rolling (FastCRCTab₀ CRCTab₀ RollingCRCTab₀ T₀ : Nat → Nat) (c : Nat)
    (hc : c < 256) :
    FastTableBuild T₀
        (BuildRollingCRCTable 0 (FastTableBuild FastCRCTab₀ kCrcPoly) RollingCRCTab₀ 128) c =
      BuildRollingCRCTable 0 (FastTableBuild FastCRCTab₀ kCrcPoly) RollingCRCTab₀ c ∧
    FastTableBuild T₀ (BuildRollingCRCTable 0 (classicTable CRCTab₀) RollingCRCTab₀ 128) c =
      BuildRollingCRCTable 0 (classicTable CRCTab₀) RollingCRCTab₀ c := by
  have key : ∀ B, IsBaseTable B →
      FastTableBuild T₀ (BuildRollingCRCTable 0 B RollingCRCTab₀ 128) c =
        BuildRollingCRCTable 0 B RollingCRCTab₀ c := by
    intro B hB
    have hR : ∀ i, i < 256 → BuildRollingCRCTable 0 B RollingCRCTab₀ i = crcRound^[808] i := by
      intro i hi
      rw [BuildRollingCRCTable_apply, if_pos hi, rollingEntry_base_zero hB i hi]
    have hD := (iterate_doubling 808).congr hR
    rw [← hR 128 (by decide)] at hD
    exact DoublingTable.unique (FastTableBuild_doubling T₀ _) hD c hc
  exact ⟨key _ (FastTableBuild_isBase FastCRCTab₀), key _ (classicTable_isBase CRCTab₀)⟩

/-- Entry `255` of the two rolling tables. -/
theorem FastTableBuild_eq_rolling_witness :
    FastTableBuild (fun _ => 0)
        (BuildRollingCRCTable 0 (FastTableBuild (fun _ => 0) kCrcPoly) (fun _ => 0) 128) 255 =
      BuildRollingCRCTable 0 (FastTableBuild (fun _ => 0) kCrcPoly) (fun _ => 0) 255 ∧
    FastTableBuild (fun _ => 0)
        (BuildRollingCRCTable 0 (classicTable (fun _ => 0)) (fun _ => 0) 128) 255 =
      BuildRollingCRCTable 0 (classicTable (fun _ => 0)) (fun _ => 0) 255 :=
  FastTableBuild_eq_rolling (fun _ => 0) (fun _ => 0) (fun _ => 0) (fun _ => 0) 255 (by decide)

/-- C4: in the default configuration the classic table and the rolling table output by
`BuildRollingCRCTable` (on the table of `FastTableBuild`, as in `main`, or on the classic
table), none of which is built by doubling, satisfy the doubling invariant: entry `0` is
`0` and `table[i+j] == table[i] ^ table[j]` for every power of two `i ≤ 128` and `j < i`. -/
theorem doubling_invariant_default (CRCTab₀ FastCRCTab₀ RollingCRCTab₀ : Nat → Nat) :
    DoublingInvariant (classicTable CRCTab₀) ∧
    DoublingInvariant
      (BuildRollingCRCTable 0 (FastTableBuild FastCRCTab₀ kCrcPoly) RollingCRCTab₀) ∧
    DoublingInvariant (BuildRollingCRCTable 0 (classicTable CRCTab₀) RollingCRCTab₀) := by
  have hR : ∀ B, IsBaseTable B → ∀ i, i < 256 →
      BuildRollingCRCTable 0 B RollingCRCTab₀ i = crcRound^[808] i := by
    intro B hB i hi
    rw [BuildRollingCRCTable_apply, if_pos hi, rollingEntry_base_zero hB i hi]
  exact ⟨linear_doublingInvariant (crcRound_iterate_xor 8) (classicTable_isBase CRCTab₀),
    linear_doublingInvariant (crcRound_iterate_xor 808) (hR _ (FastTableBuild_isBase _)),
    linear_doublingInvariant (crcRound_iterate_xor 808) (hR _ (classicTable_isBase _))⟩

/-- C5: for every base table, initial value and byte `c`, `BuildRollingCRCTable` stores
`x ^ y` in `RollingCRCTable[c]`, where `x` is reached from `init_CRC()` by one update with
`c` and then 100 updates with `0`, and `y` from `init_CRC()` by 100 updates with `0`. -/
theorem BuildRollingCRCTable_entry (CRC_INIT_VAL : Nat) (CRCTable RollingCRCTable₀ : Nat → Nat)
    (c : Nat) (hc : c < 256) :
    BuildRollingCRCTable CRC_INIT_VAL CRCTable RollingCRCTable₀ c =
      (fun x => update_CRC x CRCTable 0)^[100]
          (update_CRC (init_CRC CRC_INIT_VAL) CRCTable c) ^^^
        (fun y => update_CRC y CRCTable 0)^[100] (init_CRC CRC_INIT_VAL) := by
  rw [BuildRollingCRCTable_apply, if_pos hc, rollingEntry_eq]
  rfl

/-- The entry for `c = 1` over the all-zero table with initial value `0xFFFFFFFF`. -/
theorem BuildRollingCRCTable_entry_witness :
    BuildRollingCRCTable 0xFFFFFFFF (fun _ => 0) (fun _ => 0) 1 =
      (fun x => update_CRC x (fun _ => 0) 0)^[100]
          (update_CRC (init_CRC 0xFFFFFFFF) (fun _ => 0) 1) ^^^
        (fun y => update_CRC y (fun _ => 0) 0)^[100] (init_CRC 0xFFFFFFFF) :=
  BuildRollingCRCTable_entry 0xFFFFFFFF (fun _ => 0) (fun _ => 0) 1 (by decide)

/-- C6: rolling equivalence for any initial value, in particular `CRC_INIT_VAL =
0xFFFFFFFF`.  With `CRCTab` the base table and `RollingCRCTab` the output of
`BuildRollingCRCTable` (on `CRCTab`, or on the table of `FastTableBuild` as in `main`),
for every buffer of `100 + N` bytes and every `k ≤ N` the direct checksum of
`buffer[k .. k+100]` equals the checksum of `buffer[0 .. 100]` advanced by `k` rolling
steps. -/
theorem rolling_equivalence_any_init (CRC_INIT_VAL : Nat)
    (CRCTab₀ FastCRCTab₀ RollingCRCTab₀ : Nat → Nat) (N : Nat) (buffer : Nat → Nat)
    (hbuf : ∀ i, i < 100 + N → buffer i < 256) (k : Nat) (hk : k ≤ N) :
    calcCRC CRC_INIT_VAL (offset buffer k) 100 (classicTable CRCTab₀) =
      rollCRC CRC_INIT_VAL buffer k (classicTable CRCTab₀)
        (BuildRollingCRCTable CRC_INIT_VAL (classicTable CRCTab₀) RollingCRCTab₀) ∧
    calcCRC CRC_INIT_VAL (offset buffer k) 100 (classicTable CRCTab₀) =
      rollCRC CRC_INIT_VAL buffer k (classicTable CRCTab₀)
        (BuildRollingCRCTable CRC_INIT_VAL (FastTableBuild FastCRCTab₀ kCrcPoly)
          RollingCRCTab₀) := by
  have hC := classicTable_isBase CRCTab₀
  have hb : ∀ i, i < k → buffer i < 256 := fun i hi => hbuf i (by omega)
  refine ⟨rolling_equivalence hC.xorLinear _ buffer ?_ k hb,
    rolling_equivalence hC.xorLinear _ buffer ?_ k hb⟩
  · intro c hc
    rw [BuildRollingCRCTable_apply, if_pos hc]
  · intro c hc
    rw [BuildRollingCRCTable_apply, if_pos hc,
      rollingEntry_base (FastTableBuild_isBase FastCRCTab₀) _ c hc, rollingEntry_base hC _ c hc]

/-- The test of `main` compiled with `-DCRC_INIT_VAL=0xFFFFFFFF`: `N = k = 200` on the test
buffer. -/
theorem rolling_equivalence_any_init_witness :
    calcCRC 0xFFFFFFFF (offset testBuffer TESTSIZE) WINSIZE (classicTable (fun _ => 0)) =
      rollCRC 0xFFFFFFFF testBuffer TESTSIZE (classicTable (fun _ => 0))
        (BuildRollingCRCTable 0xFFFFFFFF (classicTable (fun _ => 0)) (fun _ => 0)) ∧
    calcCRC 0xFFFFFFFF (offset testBuffer TESTSIZE) WINSIZE (classicTable (fun _ => 0)) =
      rollCRC 0xFFFFFFFF testBuffer TESTSIZE (classicTable (fun _ => 0))
        (BuildRollingCRCTable 0xFFFFFFFF (FastTableBuild (fun _ => 0) kCrcPoly)
          (fun _ => 0)) :=
  rolling_equivalence_any_init 0xFFFFFFFF (fun _ => 0) (fun _ => 0) (fun _ => 0) 200 testBuffer
    (fun i _ => Nat.mod_lt _ (by decide)) 200 (Nat.le_refl 200)

/-- C7: entry `1` of the classic table and entry `1` of the table of `FastTableBuild`
seeded with the polynomial are both `0x77073096`. -/
theorem entry_one (CRCTab₀ FastCRCTab₀ : Nat → Nat) :
    classicTable CRCTab₀ 1 = 0x77073096 ∧ FastTableBuild FastCRCTab₀ 0xEDB88320 1 = 0x77073096 := by
  have h : crcRound^[8] 1 = 0x77073096 := by decide
  exact ⟨(classicTable_isBase CRCTab₀ 1 (by decide)).trans h,
    (FastTableBuild_isBase FastCRCTab₀ 1 (by decide)).trans h⟩

/-- C8: on a buffer of length `0`, `calcCRC` returns `finish_CRC(init_CRC())`, which is `0`;
on every buffer it returns `finish_CRC` of the left-to-right fold of
`update_CRC(s, T, b) = T[(s ^ b) & 0xFF] ^ (s >> 8)` over the bytes, from `init_CRC()`. -/
theorem calcCRC_fold (CRC_INIT_VAL : Nat) (CRCTable buffer : Nat → Nat) (len : Nat) :
    calcCRC CRC_INIT_VAL buffer 0 CRCTable = finish_CRC CRC_INIT_VAL (init_CRC CRC_INIT_VAL) ∧
    finish_CRC CRC_INIT_VAL (init_CRC CRC_INIT_VAL) = 0 ∧
    calcCRC CRC_INIT_VAL buffer len CRCTable =
      finish_CRC CRC_INIT_VAL
        (((List.range len).map buffer).foldl
          (fun s b => CRCTable ((s ^^^ b) &&& 0xFF) ^^^ (s >>> 8)) (init_CRC CRC_INIT_VAL)) := by
  refine ⟨?_, ?_, ?_⟩
  · rw [calcCRC_eq, crcState_zero]
  · simp only [finish_CRC, init_CRC, Nat.xor_self]
  · rw [calcCRC_eq]
    congr 1
    simp only [crcState, forLoop, Nat.sub_zero, List.foldl_map, List.range_eq_range', update_CRC]

/-- C9 as stated fails: with `CRC_INIT_VAL = 0xFFFFFFFF` entry `0` of the rolling table is
`0x30A28A2F`, entry `3` is not the XOR of entries `2` and `1`, and the doubling invariant
does not hold. -/
theorem rolling_table_all_ones_counterexample :
    BuildRollingCRCTable 0xFFFFFFFF (FastTableBuild (fun _ => 0) kCrcPoly) (fun _ => 0) 0 =
      0x30A28A2F ∧
    BuildRollingCRCTable 0xFFFFFFFF (FastTableBuild (fun _ => 0) kCrcPoly) (fun _ => 0) (2 + 1) ≠
      BuildRollingCRCTable 0xFFFFFFFF (FastTableBuild (fun _ => 0) kCrcPoly) (fun _ => 0) 2 ^^^
        BuildRollingCRCTable 0xFFFFFFFF (FastTableBuild (fun _ => 0) kCrcPoly) (fun _ => 0) 1 ∧
    ¬ DoublingInvariant
      (BuildRollingCRCTable 0xFFFFFFFF (FastTableBuild (fun _ => 0) kCrcPoly) (fun _ => 0)) := by
  have hR := allOnes_rolling_apply (fun _ => 0) (fun _ => 0)
  obtain ⟨h0, h1, h2, h3⟩ := allOnes_values
  refine ⟨(hR 0 (by decide)).trans h0, ?_, ?_⟩
  · rw [hR (2 + 1) (by decide), hR 2 (by decide), hR 1 (by decide), h1, h2, h3]
    decide
  · intro h
    rw [DoublingInvariant, hR 0 (by decide), h0] at h
    exact absurd h.1 (by decide)

/-- C9, amended: with `CRC_INIT_VAL = 0xFFFFFFFF` and `WINSIZE = 100` the rolling table
output by `BuildRollingCRCTable` on the base table has `RollingCRCTable[0] == 0x30A28A2F`,
and for every power of two `i ≤ 128` and every `j < i`,
`RollingCRCTable[i+j] == RollingCRCTable[i] ^ RollingCRCTable[j] ^ RollingCRCTable[0]`. -/
theorem rolling_table_all_ones_affine (FastCRCTab₀ RollingCRCTab₀ : Nat → Nat) :
    BuildRollingCRCTable 0xFFFFFFFF (FastTableBuild FastCRCTab₀ kCrcPoly) RollingCRCTab₀ 0 =
      0x30A28A2F ∧
    ∀ i ∈ [1, 2, 4, 8, 16, 32, 64, 128], ∀ j, j < i →
      BuildRollingCRCTable 0xFFFFFFFF (FastTableBuild FastCRCTab₀ kCrcPoly) RollingCRCTab₀
          (i + j) =
        BuildRollingCRCTable 0xFFFFFFFF (FastTableBuild FastCRCTab₀ kCrcPoly) RollingCRCTab₀ i ^^^
          BuildRollingCRCTable 0xFFFFFFFF (FastTableBuild FastCRCTab₀ kCrcPoly) RollingCRCTab₀ j ^^^
          BuildRollingCRCTable 0xFFFFFFFF (FastTableBuild FastCRCTab₀ kCrcPoly) RollingCRCTab₀ 0 := by
  have hK := allOnes_values.1
  rw [Nat.xor_zero] at hK
  have hR : ∀ c, c < 256 →
      BuildRollingCRCTable 0xFFFFFFFF (FastTableBuild FastCRCTab₀ kCrcPoly) RollingCRCTab₀ c =
        crcRound^[808] c ^^^ 0x30A28A2F := by
    intro c hc
    rw [allOnes_rolling_apply FastCRCTab₀ RollingCRCTab₀ c hc, crcRound_iterate_xor, ← hK]
    simp only [Nat.xor_assoc, xor_left_comm]
  have h0 : BuildRollingCRCTable 0xFFFFFFFF (FastTableBuild FastCRCTab₀ kCrcPoly)
      RollingCRCTab₀ 0 = 0x30A28A2F := by
    rw [hR 0 (by decide), crcRound_iterate_zero, Nat.zero_xor]
  refine ⟨h0, ?_⟩
  rw [h0]
  exact affine_doubling (crcRound_iterate_xor 808) hR

/-- C10: for every seed the table written by `FastTableBuild` has `table[0] == 0`,
`table[128] == seed`, `table[i/2] == (table[i] >> 1) ^ (0xEDB88320 if table[i] is odd,
else 0)` for `i = 128, 64, ..., 2`, and `table[i+j] == table[i] ^ table[j]` for
`i = 2, 4, ..., 128` and `1 ≤ j < i`. -/
theorem FastTableBuild_contents (CRCTable₀ : Nat → Nat) (seed : Nat) :
    FastTableBuild CRCTable₀ seed 0 = 0 ∧
    FastTableBuild CRCTable₀ seed 128 = seed ∧
    (∀ i ∈ [128, 64, 32, 16, 8, 4, 2],
      FastTableBuild CRCTable₀ seed (i / 2) =
        (FastTableBuild CRCTable₀ seed i >>> 1) ^^^
          (if FastTableBuild CRCTable₀ seed i % 2 = 1 then 0xEDB88320 else 0)) ∧
    (∀ i ∈ [2, 4, 8, 16, 32, 64, 128], ∀ j, 1 ≤ j → j < i →
      FastTableBuild CRCTable₀ seed (i + j) =
        FastTableBuild CRCTable₀ seed i ^^^ FastTableBuild CRCTable₀ seed j) := by
  obtain ⟨h0, h128, hh, hc⟩ := FastTableBuild_doubling CRCTable₀ seed
  have hh' : ∀ e, e < 7 → FastTableBuild CRCTable₀ seed (2 ^ (e + 1) / 2) =
      (FastTableBuild CRCTable₀ seed (2 ^ (e + 1)) >>> 1) ^^^
        (if FastTableBuild CRCTable₀ seed (2 ^ (e + 1)) % 2 = 1 then 0xEDB88320 else 0) := by
    intro e he
    have h := hh e he
    rw [crcRound_eq_fun] at h
    rw [Nat.pow_succ, Nat.mul_div_cancel _ (by decide : 0 < 2)]
    exact h
  refine ⟨h0, h128, ?_, ?_⟩
  · intro i hi
    simp only [List.mem_cons, List.mem_singleton, List.not_mem_nil, or_false] at hi
    rcases hi with h | h | h | h | h | h | h <;> subst h
    · exact hh' 6 (by decide)
    · exact hh' 5 (by decide)
    · exact hh' 4 (by decide)
    · exact hh' 3 (by decide)
    · exact hh' 2 (by decide)
    · exact hh' 1 (by decide)
    · exact hh' 0 (by decide)
  · intro i hi j h1 h2
    simp only [List.mem_cons, List.mem_singleton, List.not_mem_nil, or_false] at hi
    rcases hi with h | h | h | h | h | h | h <;> subst h
    · exact hc 0 (by decide) j h1 h2
    · exact hc 1 (by decide) j h1 h2
    · exact hc 2 (by decide) j h1 h2
    · exact hc 3 (by decide) j h1 h2
    · exact hc 4 (by decide) j h1 h2
    · exact hc 5 (by decide) j h1 h2
    · exact hc 6 (by decide) j h1 h2

/-- C11: the update step is linear over GF(2).  With `T` the base table for the polynomial
(the classic table, or the table of `FastTableBuild`), for all states `s1`, `s2` and bytes
`b1`, `b2`, `update_CRC(s1 ^ s2, T, b1 ^ b2) == update_CRC(s1, T, b1) ^ update_CRC(s2, T, b2)`.
No bound on the states or bytes is needed. -/
theorem update_CRC_linear (CRCTab₀ FastCRCTab₀ : Nat → Nat) (s1 s2 b1 b2 : Nat) :
    update_CRC (s1 ^^^ s2) (classicTable CRCTab₀) (b1 ^^^ b2) =
      update_CRC s1 (classicTable CRCTab₀) b1 ^^^ update_CRC s2 (classicTable CRCTab₀) b2 ∧
    update_CRC (s1 ^^^ s2) (FastTableBuild FastCRCTab₀ kCrcPoly) (b1 ^^^ b2) =
      update_CRC s1 (FastTableBuild FastCRCTab₀ kCrcPoly) b1 ^^^
        update_CRC s2 (FastTableBuild FastCRCTab₀ kCrcPoly) b2 :=
  ⟨update_CRC_xor (classicTable_isBase CRCTab₀).xorLinear s1 s2 b1 b2,
    update_CRC_xor (FastTableBuild_isBase FastCRCTab₀).xorLinear s1 s2 b1 b2⟩

/-- C12: with `CRC_INIT_VAL = 0` and `WINSIZE = 100`, for every byte `c` the entry of the
rolling table built inline in `main` equals the entry written by `BuildRollingCRCTable` on
the table of `FastTableBuild`; the term `y` of `BuildRollingCRCTable` (100 updates with
byte `0` from `init_CRC()`) is `0`; and the entry is `calcCRC` of the 101-byte buffer made
of `c` followed by 100 zero bytes. -/
theorem inline_rolling_eq_slow (CRCTab₀ FastCRCTab₀ RollingCRCTab₀ SlowRollingCRCTab₀ : Nat → Nat)
    (c : Nat) (hc : c < 256) :
    inlineRollingTable (classicTable CRCTab₀) RollingCRCTab₀ c =
        BuildRollingCRCTable 0 (FastTableBuild FastCRCTab₀ kCrcPoly) SlowRollingCRCTab₀ c ∧
      (fun y => update_CRC y (FastTableBuild FastCRCTab₀ kCrcPoly) 0)^[100] (init_CRC 0) = 0 ∧
      inlineRollingTable (classicTable CRCTab₀) RollingCRCTab₀ c =
        calcCRC 0 (fun i => if i = 0 then c else 0) 101 (classicTable CRCTab₀) := by
  have hC := classicTable_isBase CRCTab₀
  have hF := FastTableBuild_isBase FastCRCTab₀
  refine ⟨?_, zeroSteps_zero hF.xorLinear 100, ?_⟩
  · rw [inlineRollingTable_eq_rollingEntry hC.xorLinear _ c hc, BuildRollingCRCTable_apply,
      if_pos hc, rollingEntry_base hC 0 c hc, rollingEntry_base hF 0 c hc]
  · rw [inlineRollingTable_apply, if_pos hc, calcCRC_eq]
    simp only [init_CRC, finish_CRC, Nat.xor_zero]
    exact (crcState_after_first (classicTable CRCTab₀) c 100).symm

/-- The entry for `c = 128`, the seed of the fast rolling table. -/
theorem inline_rolling_eq_slow_witness :
    inlineRollingTable (classicTable (fun _ => 0)) (fun _ => 0) 128 =
        BuildRollingCRCTable 0 (FastTableBuild (fun _ => 0) kCrcPoly) (fun _ => 0) 128 ∧
      (fun y => update_CRC y (FastTableBuild (fun _ => 0) kCrcPoly) 0)^[100] (init_CRC 0) = 0 ∧
      inlineRollingTable (classicTable (fun _ => 0)) (fun _ => 0) 128 =
        calcCRC 0 (fun i => if i = 0 then 128 else 0) 101 (classicTable (fun _ => 0)) :=
  inline_rolling_eq_slow (fun _ => 0) (fun _ => 0) (fun _ => 0) (fun _ => 0) 128 (by decide)

/-- C13: for every 32-bit `r` the branch-free round `(r >> 1) ^ (0xEDB88320 & ~((r & 1) - 1))`,
computed with 32-bit wraparound, is `(r >> 1) ^ 0xEDB88320` when the low bit of `r` is set
and `r >> 1` otherwise; the result is again a 32-bit value. -/
theorem crcRound_branch_free (r : Nat) (hr : r < 2 ^ 32) :
    (r >>> 1) ^^^ (0xEDB88320 &&& u32not (u32sub (r &&& 1) 1)) =
        (if r &&& 1 = 1 then (r >>> 1) ^^^ 0xEDB88320 else r >>> 1) ∧
      crcRound r = (r >>> 1) ^^^ (0xEDB88320 &&& u32not (u32sub (r &&& 1) 1)) ∧
      crcRound r < 2 ^ 32 := by
  have h := crcRound_eq r
  have e : (r >>> 1) ^^^ (0xEDB88320 &&& u32not (u32sub (r &&& 1) 1)) = crcRound r := rfl
  refine ⟨?_, rfl, crcRound_lt hr⟩
  rw [e, h, Nat.and_one_is_mod, Nat.shiftRight_eq_div_pow]
  split_ifs
  · rfl
  · exact Nat.xor_zero _

/-- The round of an odd and of an even 32-bit value. -/
theorem crcRound_branch_free_witness :
    ((0xFFFFFFFF >>> 1) ^^^ (0xEDB88320 &&& u32not (u32sub (0xFFFFFFFF &&& 1) 1)) =
        (if 0xFFFFFFFF &&& 1 = 1 then (0xFFFFFFFF >>> 1) ^^^ 0xEDB88320 else 0xFFFFFFFF >>> 1) ∧
      crcRound 0xFFFFFFFF =
        (0xFFFFFFFF >>> 1) ^^^ (0xEDB88320 &&& u32not (u32sub (0xFFFFFFFF &&& 1) 1)) ∧
      crcRound 0xFFFFFFFF < 2 ^ 32) ∧
    crcRound 0xFFFFFFFF = 0x92477CDF ∧ crcRound 0xFFFFFFFE = 0x7FFFFFFF :=
  ⟨crcRound_branch_free 0xFFFFFFFF (by decide), by decide, by decide⟩

/-- C14: the table-driven update is the bit-at-a-time CRC.  With `T` the base table (the
classic table, or the table of `FastTableBuild`), for every state `s` and every byte `b`,
`update_CRC(s, T, b)` is eight rounds of `r -> (r >> 1) ^ (0xEDB88320 if r is odd, else 0)`
applied to `s ^ b`. -/
theorem update_CRC_bitwise (CRCTab₀ FastCRCTab₀ : Nat → Nat) (s b : Nat) (hs : s < 2 ^ 32)
    (hb : b < 256) :
    update_CRC s (classicTable CRCTab₀) b =
      (fun r => (r >>> 1) ^^^ (if r % 2 = 1 then 0xEDB88320 else 0))^[8] (s ^^^ b) ∧
    update_CRC s (FastTableBuild FastCRCTab₀ kCrcPoly) b =
      (fun r => (r >>> 1) ^^^ (if r % 2 = 1 then 0xEDB88320 else 0))^[8] (s ^^^ b) ∧
    update_CRC s (classicTable CRCTab₀) b < 2 ^ 32 := by
  have e : (fun r => (r >>> 1) ^^^ (if r % 2 = 1 then 0xEDB88320 else 0)) = crcRound :=
    crcRound_eq_fun.symm
  have hx : s ^^^ b < 2 ^ 32 :=
    Nat.xor_lt_two_pow hs (Nat.lt_of_lt_of_le hb (by decide))
  rw [e, update_CRC_base (classicTable_isBase CRCTab₀) s b hb,
    update_CRC_base (FastTableBuild_isBase FastCRCTab₀) s b hb]
  exact ⟨rfl, rfl, crcRound_iterate_lt 8 hx⟩

/-- The update of state `0xFFFFFFFF` with the byte `0x31`. -/
theorem update_CRC_bitwise_witness :
    update_CRC 0xFFFFFFFF (classicTable (fun _ => 0)) 0x31 =
      (fun r => (r >>> 1) ^^^ (if r % 2 = 1 then 0xEDB88320 else 0))^[8] (0xFFFFFFFF ^^^ 0x31) ∧
    update_CRC 0xFFFFFFFF (FastTableBuild (fun _ => 0) kCrcPoly) 0x31 =
      (fun r => (r >>> 1) ^^^ (if r % 2 = 1 then 0xEDB88320 else 0))^[8] (0xFFFFFFFF ^^^ 0x31) ∧
    update_CRC 0xFFFFFFFF (classicTable (fun _ => 0)) 0x31 < 2 ^ 32 :=
  update_CRC_bitwise (fun _ => 0) (fun _ => 0) 0xFFFFFFFF 0x31 (by decide) (by decide)

/-- C15: `FastTableBuild` fully overwrites its output.  In the trace of its accesses to
`CRCTable` every index read or written is below 256, each of the 256 entries is written,
and every read is preceded by a write of the same entry; hence for every seed the entries
`0..255` of the result do not depend on the contents of the array before the call. -/
theorem FastTableBuild_overwrites (CRCTable₀ : Nat → Nat) (seed : Nat) :
    (FastTableBuildTr CRCTable₀ seed).1 = FastTableBuild CRCTable₀ seed ∧
    (∀ a ∈ (FastTableBuildTr CRCTable₀ seed).2, a.index < 256) ∧
    (∀ k, k < 256 → Access.write k ∈ (FastTableBuildTr CRCTable₀ seed).2) ∧
    (∀ pre i post, (FastTableBuildTr CRCTable₀ seed).2 = pre ++ Access.read i :: post →
      Access.write i ∈ pre) ∧
    (∀ CRCTable₁ k, k < 256 →
      FastTableBuild CRCTable₀ seed k = FastTableBuild CRCTable₁ seed k) := by
  rw [FastTableBuildTr_eq]
  refine ⟨rfl, fastTrace_index, fastTrace_writes, ?_, ?_⟩
  · intro pre i post h
    rcases readsWritten_sound fastTrace [] fastTrace_reads pre i post h with h1 | h1
    · simp at h1
    · exact h1
  · intro CRCTable₁ k hk
    exact DoublingTable.unique (FastTableBuild_doubling CRCTable₀ seed)
      (FastTableBuild_doubling CRCTable₁ seed) k hk

/-- C16: with `CRC_INIT_VAL = 0xFFFFFFFF` and the base table (the classic table, or the
table of `FastTableBuild`), `calcCRC` on the nine ASCII bytes of "123456789" returns the
check value `0xCBF43926` of the standard zip CRC-32. -/
theorem calcCRC_check_value (CRCTab₀ FastCRCTab₀ : Nat → Nat) :
    calcCRC 0xFFFFFFFF
        (fun i => [0x31, 0x32, 0x33, 0x34, 0x35, 0x36, 0x37, 0x38, 0x39].getD i 0) 9
        (classicTable CRCTab₀) = 0xCBF43926 ∧
    calcCRC 0xFFFFFFFF
        (fun i => [0x31, 0x32, 0x33, 0x34, 0x35, 0x36, 0x37, 0x38, 0x39].getD i 0) 9
        (FastTableBuild FastCRCTab₀ kCrcPoly) = 0xCBF43926 :=
  ⟨(calcCRC_congr (classicTable_isBase CRCTab₀) _ _ _).trans check_value,
    (calcCRC_congr (FastTableBuild_isBase FastCRCTab₀) _ _ _).trans check_value⟩

/-- C17: with `CRC_INIT_VAL = 0` and the base table (the classic table, or the table of
`FastTableBuild`), `calcCRC` of `n` zero bytes followed by the `len` bytes of `b` equals
`calcCRC` of `b`, and `calcCRC` of `n` zero bytes is `0`. -/
theorem calcCRC_ignores_leading_zeros (CRCTab₀ FastCRCTab₀ : Nat → Nat) (n : Nat)
    (b : Nat → Nat) (len : Nat) :
    calcCRC 0 (fun i => if i < n then 0 else b (i - n)) (n + len) (classicTable CRCTab₀) =
      calcCRC 0 b len (classicTable CRCTab₀) ∧
    calcCRC 0 (fun i => if i < n then 0 else b (i - n)) (n + len)
        (FastTableBuild FastCRCTab₀ kCrcPoly) =
      calcCRC 0 b len (FastTableBuild FastCRCTab₀ kCrcPoly) ∧
    calcCRC 0 (fun _ => 0) n (classicTable CRCTab₀) = 0 ∧
    calcCRC 0 (fun _ => 0) n (FastTableBuild FastCRCTab₀ kCrcPoly) = 0 :=
  ⟨calcCRC_leading_zeros (classicTable_isBase CRCTab₀).xorLinear n b len,
    calcCRC_leading_zeros (FastTableBuild_isBase FastCRCTab₀).xorLinear n b len,
    calcCRC_all_zeros (classicTable_isBase CRCTab₀).xorLinear n,
    calcCRC_all_zeros (FastTableBuild_isBase FastCRCTab₀).xorLinear n⟩

end RollingCRC
